import Mathlib

/-!
Verification development for `scripts/kohya/lycoris_utils.py` of
sd-webui-model-mixer.

The Python file orchestrates truncated-SVD extraction of low-rank weight
deltas (`extract_conv`, `extract_linear`, `extract_diff`) and their
reconstruction and merge (`get_module`, `rebuild_weight`, `merge`).

We embed the code shallowly in two layers:

* a *shaped* embedding over rational matrices and 4-index tensors
  (`Matrix (Fin m) (Fin n) ℚ`, `Tensor4`) for the linear-algebra claims
  about extraction and locon reconstruction.  The external tensor runtime's
  `torch.linalg.svd` is a collaborator, not code of this repository; it is
  modelled as an oracle argument (`SVDData`) whose contract (`IsSVD`) is
  assumed in the theorems that need it.  Exact rational arithmetic stands
  in for the working floating precision.

* a *dynamic* embedding (`DTensor`: dtype tag, shape, flat rational data)
  for dispatch and error-path claims about `get_module`, `rebuild_weight`
  and `merge`, where Python `None` handling, tensor truthiness and
  exceptions decide the behaviour.  Exceptions are modelled with `Except`.
-/

namespace Lycoris

/-- Errors raised by the Python code: `raise NotImplementedError`, attribute
access on `None`, torch runtime errors (bad reshape, ambiguous tensor
truthiness), `assert` failures and dict `KeyError`. -/
inductive Err where
  | notImplementedError
  | attributeError
  | runtimeError
  | assertionError
  | keyError
  | typeError
  deriving DecidableEq, Repr

/-! ## Rank selection (`extract_conv` lines 39-56, `extract_linear` lines 84-101)

Both functions run the identical mode-dispatch block on the singular value
vector `S`; we embed that block once as `select_rank` and the subsequent
two clamping lines as `clamp_rank`. -/

/-- The rank-selection mode together with its `mode_param`, i.e. the
`(mode, mode_param)` argument pair of `extract_conv` / `extract_linear`.
`fixed` carries the integer rank, the other modes carry a rational
parameter.  (`percentile` is the source's alias for `quantile`.) -/
inductive ExtractMode where
  | fixed (n : ℕ)
  | threshold (t : ℚ)
  | ratio (r : ℚ)
  | quantile (q : ℚ)
  | percentile (q : ℚ)
  deriving DecidableEq, Repr

/-- Model of `torch.cumsum(S, dim=0)` on a 1-D tensor. -/
def cumsum : List ℚ → List ℚ
  | [] => []
  | x :: xs => x :: (cumsum xs).map (x + ·)

/-- Model of `torch.max(S)` on a 1-D tensor of singular values (which are
nonnegative, so the `0` default for the empty tensor is harmless). -/
def maxList (S : List ℚ) : ℚ := S.foldr max 0

/-- Lines 39-54 of `extract_conv` (= lines 84-99 of `extract_linear`):
the pre-clamp rank selected from the singular values `S`.
`torch.sum(S > c)` on a boolean tensor is the count of `true` entries,
embedded as `List.countP`.  The `assert` statements become
`Err.assertionError`. -/
def select_rank (mode : ExtractMode) (S : List ℚ) : Except Err ℕ :=
  match mode with
  | .fixed n => .ok n
  | .threshold t =>
      if 0 ≤ t then .ok (S.countP (fun s => decide (t < s)))
      else .error .assertionError
  | .ratio r =>
      if 0 ≤ r ∧ r ≤ 1 then
        .ok (S.countP (fun s => decide (maxList S * r < s)))
      else .error .assertionError
  | .quantile q =>
      if 0 ≤ q ∧ q ≤ 1 then
        .ok ((cumsum S).countP (fun c => decide (c < q * S.sum)))
      else .error .assertionError
  | .percentile q =>
      if 0 ≤ q ∧ q ≤ 1 then
        .ok ((cumsum S).countP (fun c => decide (c < q * S.sum)))
      else .error .assertionError

/-- Lines 55-56: `lora_rank = max(1, lora_rank); lora_rank = min(out_ch,
in_ch, lora_rank)`.  Note that for convolutions `in_ch` is the channel
count, not the flattened width. -/
def clamp_rank (out_ch in_ch r : ℕ) : ℕ := min out_ch (min in_ch (max 1 r))

/-- The length of the smallest prefix of `S` whose sum reaches (`≥`) `t`;
this is the rank the spec's words describe for `quantile` mode.  Written
as a recursion: a prefix of `x :: xs` reaching `t > 0` is `x` followed by
a prefix of `xs` reaching `t - x`. -/
def smallestReach (t : ℚ) : List ℚ → ℕ
  | [] => 0
  | x :: xs => if t ≤ 0 then 0 else smallestReach (t - x) xs + 1

/-! ## Shaped embedding of `extract_linear` (lines 72-114)

Weights are rational matrices.  `torch.linalg.svd` (`full_matrices=True`)
is the external runtime's kernel; it is modelled as an oracle value
`SVDData` whose contract `IsSVD` the theorems assume. -/

/-- The value triple returned by `torch.linalg.svd(M)` for an `m × n`
matrix: `U : m × m`, `S` of length `min m n`, `Vh : n × n`. -/
structure SVDData (m n : ℕ) where
  U : Matrix (Fin m) (Fin m) ℚ
  S : Fin (min m n) → ℚ
  Vh : Matrix (Fin n) (Fin n) ℚ

/-- The rectangular diagonal matrix with `S` on the diagonal. -/
def sigmaMat {m n : ℕ} (S : Fin (min m n) → ℚ) : Matrix (Fin m) (Fin n) ℚ :=
  Matrix.of fun i j =>
    if h : (i : ℕ) = (j : ℕ) ∧ (i : ℕ) < min m n then S ⟨i, h.2⟩ else 0

/-- The contract of `torch.linalg.svd`: `M = U Σ Vh`, `U` and `Vh`
orthogonal, singular values descending and nonnegative. -/
def IsSVD {m n : ℕ} (d : SVDData m n) (M : Matrix (Fin m) (Fin n) ℚ) : Prop :=
  M = d.U * sigmaMat d.S * d.Vh ∧
  d.U.transpose * d.U = 1 ∧
  d.Vh * d.Vh.transpose = 1 ∧
  (∀ i j : Fin (min m n), i ≤ j → d.S j ≤ d.S i) ∧
  (∀ i : Fin (min m n), 0 ≤ d.S i)

/-- Embedding of `U[:, :r] @ torch.diag(S[:r])` — the truncated left factor
(`extract_weight_B`, the lora up weight; lines 60-62 / 105-107).
The out-of-range guard returns 0; extraction only uses `r ≤ min m n`. -/
def truncUp {m n : ℕ} (U : Matrix (Fin m) (Fin m) ℚ) (S : Fin (min m n) → ℚ)
    (r : ℕ) : Fin m → Fin r → ℚ := fun i j =>
  if h : (j : ℕ) < min m n then
    U i ⟨j, lt_of_lt_of_le h (min_le_left _ _)⟩ * S ⟨j, h⟩
  else 0

/-- Embedding of `Vh[:lora_rank, :]` — the truncated right factor (`extract_weight_A`,
the lora down weight; line 63 / 108). -/
def truncDown {n : ℕ} (Vh : Matrix (Fin n) (Fin n) ℚ) (r : ℕ) :
    Fin r → Fin n → ℚ := fun j k =>
  if h : (j : ℕ) < n then Vh ⟨j, h⟩ k else 0

/-- Product of an `m × r` and an `r × n` rectangular array. -/
def matProd {m r n : ℕ} (B : Fin m → Fin r → ℚ) (A : Fin r → Fin n → ℚ) :
    Matrix (Fin m) (Fin n) ℚ :=
  Matrix.of fun i k => ∑ j : Fin r, B i j * A j k

/-- Return value of `extract_linear`: either `(weight, 'full')` or
`((extract_weight_A, extract_weight_B, diff), 'low rank')`. -/
inductive LinOut (out_ch in_ch : ℕ) where
  | full (w : Matrix (Fin out_ch) (Fin in_ch) ℚ)
  | low (rank : ℕ) (down : Fin rank → Fin in_ch → ℚ)
      (up : Fin out_ch → Fin rank → ℚ)
      (diff : Matrix (Fin out_ch) (Fin in_ch) ℚ)

/-- Lines 72-114 (`extract_linear`): select a rank from the singular
values, clamp it, fall back to `full` when `lora_rank >= out_ch/2`
(i.e. `out_ch ≤ 2 * lora_rank`), otherwise return the truncated factors
and the residual `diff = weight - U @ Vh`.  The float cast of the input
is the identity in exact arithmetic. -/
def extract_linear {out_ch in_ch : ℕ}
    (weight : Matrix (Fin out_ch) (Fin in_ch) ℚ)
    (svd : SVDData out_ch in_ch) (mode : ExtractMode) :
    Except Err (LinOut out_ch in_ch) :=
  match select_rank mode (List.ofFn svd.S) with
  | .error e => .error e
  | .ok r0 =>
    let lora_rank := clamp_rank out_ch in_ch r0
    if out_ch ≤ 2 * lora_rank then .ok (.full weight)
    else
      let up := truncUp svd.U svd.S lora_rank
      let down := truncDown svd.Vh lora_rank
      .ok (.low lora_rank down up (weight - matProd up down))

/-- The `locon` branch of `rebuild_weight` (lines 369-377) for a 2-D
weight with `mid = None`: `scale *= alpha/up.size(1)` when alpha is
present (`up.size(1)` is `r`), `rebuild = up @ down`,
`merged = orig_weight + rebuild * scale`. -/
def rebuild_locon_linear {out_ch in_ch r : ℕ}
    (up : Fin out_ch → Fin r → ℚ) (down : Fin r → Fin in_ch → ℚ)
    (alpha : Option ℚ) (orig_weight : Matrix (Fin out_ch) (Fin in_ch) ℚ)
    (scale : ℚ) : Matrix (Fin out_ch) (Fin in_ch) ℚ :=
  let scale' := match alpha with
    | some a => scale * (a / (r : ℚ))
    | none => scale
  orig_weight + scale' • matProd up down

/-! ## Shaped embedding of `extract_conv` (lines 26-69)

A convolution weight of shape `(out_ch, in_ch, kh, kw)` is a 4-index
rational tensor.  `weight.reshape(out_ch, -1)` and the inverse reshapes
are modelled through a fixed bijection between `Fin (in_ch * (kh * kw))`
and the index triple. -/

/-- A 4-D tensor of shape `(a, b, c, d)`. -/
abbrev Tensor4 (a b c d : ℕ) := Fin a → Fin b → Fin c → Fin d → ℚ

/-- The index bijection realising `reshape` between a `(b, c, d)` index
triple and a flat index. -/
def idx3 (b c d : ℕ) : Fin b × Fin c × Fin d ≃ Fin (b * (c * d)) :=
  (Equiv.prodCongr (Equiv.refl (Fin b)) finProdFinEquiv).trans finProdFinEquiv

/-- Embedding of `weight.reshape(out_ch, -1)` for a 4-D tensor (line 37). -/
def reshape2 {o i k l : ℕ} (t : Tensor4 o i k l) :
    Matrix (Fin o) (Fin (i * (k * l))) ℚ :=
  Matrix.of fun a q => t a ((idx3 i k l).symm q).1 ((idx3 i k l).symm q).2.1
    ((idx3 i k l).symm q).2.2

/-- Reshape of a flat `out × (in*(kh*kw))` matrix back to 4-D
(the `.reshape(out_ch, in_ch, kernel_size, kernel_size)` on line 65). -/
def unreshape2 {o i k l : ℕ} (M : Matrix (Fin o) (Fin (i * (k * l))) ℚ) :
    Tensor4 o i k l :=
  fun a j b c => M a (idx3 i k l ⟨j, b, c⟩)

/-- Embedding of `Vh.reshape(lora_rank, in_ch, kernel_size, kernel_size)` on line 66. -/
def unreshapeRows {r i k l : ℕ} (A : Fin r → Fin (i * (k * l)) → ℚ) :
    Tensor4 r i k l :=
  fun j a b c => A j (idx3 i k l ⟨a, b, c⟩)

/-- Embedding of `down.reshape(down.size(0), -1)` on line 376. -/
def reshapeRows {r i k l : ℕ} (t : Tensor4 r i k l) :
    Fin r → Fin (i * (k * l)) → ℚ :=
  fun j q => t j ((idx3 i k l).symm q).1 ((idx3 i k l).symm q).2.1
    ((idx3 i k l).symm q).2.2

/-- Embedding of `U.reshape(out_ch, lora_rank, 1, 1)` on line 67. -/
def expand11 {o r : ℕ} (B : Fin o → Fin r → ℚ) : Tensor4 o r 1 1 :=
  fun a j _ _ => B a j

/-- Embedding of `up.reshape(up.size(0), -1)` on a `(o, r, 1, 1)` tensor, line 376. -/
def flatten11 {o r : ℕ} (t : Tensor4 o r 1 1) : Fin o → Fin r → ℚ :=
  fun a j => t a j 0 0

/-- Return value of `extract_conv`: `(weight, 'full')` or
`((extract_weight_A, extract_weight_B, diff), 'low rank')`. -/
inductive ConvOut (out_ch in_ch k l : ℕ) where
  | full (w : Tensor4 out_ch in_ch k l)
  | low (rank : ℕ) (down : Tensor4 rank in_ch k l)
      (up : Tensor4 out_ch rank 1 1) (diff : Tensor4 out_ch in_ch k l)

/-- Lines 26-69 (`extract_conv`): svd of `weight.reshape(out_ch, -1)`,
rank selection and clamping (the clamp uses the channel count `in_ch`,
not the flattened width), `full` fallback when `lora_rank >= out_ch/2 and
not is_cp`, else truncated factors reshaped to 4-D plus the residual. -/
def extract_conv {out_ch in_ch k l : ℕ} (weight : Tensor4 out_ch in_ch k l)
    (svd : SVDData out_ch (in_ch * (k * l))) (mode : ExtractMode)
    (is_cp : Bool) : Except Err (ConvOut out_ch in_ch k l) :=
  match select_rank mode (List.ofFn svd.S) with
  | .error e => .error e
  | .ok r0 =>
    let lora_rank := clamp_rank out_ch in_ch r0
    if out_ch ≤ 2 * lora_rank ∧ is_cp = false then .ok (.full weight)
    else
      let up := truncUp svd.U svd.S lora_rank
      let down := truncDown svd.Vh lora_rank
      .ok (.low lora_rank (unreshapeRows down) (expand11 up)
        (weight - unreshape2 (matProd up down)))

/-- The `locon` branch of `rebuild_weight` (lines 369-377) for a 4-D
weight with `mid = None`: `scale *= alpha/up.size(1)` when alpha is
present (`up.size(1)` is `r`), `rebuild = up.reshape(up.size(0), -1) @
down.reshape(down.size(0), -1)`, and
`merged = orig_weight + rebuild.reshape(orig_weight.shape) * scale`. -/
def rebuild_locon_conv {o i k l r : ℕ}
    (up : Tensor4 o r 1 1) (down : Tensor4 r i k l)
    (alpha : Option ℚ) (orig_weight : Tensor4 o i k l) (scale : ℚ) :
    Tensor4 o i k l :=
  let scale' := match alpha with
    | some a => scale * (a / (r : ℚ))
    | none => scale
  orig_weight + scale' • unreshape2 (matProd (flatten11 up) (reshapeRows down))

/-! Concrete data for the C2 witness: a rank-1 perturbation of a 3-channel
layer, with a rational svd oracle. -/

def c2D : Matrix (Fin 3) (Fin 1) ℚ := !![2; 0; 0]

def c2A : Matrix (Fin 3) (Fin 1) ℚ := !![2; 0; 0]

def c2B : Matrix (Fin 1) (Fin 1) ℚ := !![1]

def c2svd : SVDData 3 1 where
  U := 1
  S := fun _ => 2
  Vh := 1

def c2W : Matrix (Fin 3) (Fin 1) ℚ := !![5; 6; 7]

def c2D4 : Tensor4 3 1 1 1 := fun i _ _ _ => if i = 0 then 2 else 0

def c2A4 : Matrix (Fin 3) (Fin 1) ℚ := !![2; 0; 0]

def c2B4 : Matrix (Fin 1) (Fin (1 * (1 * 1))) ℚ := fun _ _ => 1

def c2svd4 : SVDData 3 (1 * (1 * 1)) where
  U := 1
  S := fun _ => 2
  Vh := 1

def c2W4 : Tensor4 3 1 1 1 := fun _ _ _ _ => 3

/-! ## Dynamic embedding: dtype-tagged shaped tensors

`get_module`, `rebuild_weight` and `merge` dispatch on which keys are
present and on Python `None` handling; tensor values barely matter, but
dtypes, shapes, `None` attribute errors and tensor truthiness do.  A
tensor is a dtype tag, a shape and row-major flat rational data. -/

/-- Tensor element types appearing in this code: extraction stores
`.half()` tensors, merge converts with `.float()`. -/
inductive Dtype where
  | float16
  | float32
  deriving DecidableEq, Repr

/-- A dynamically-shaped tensor: dtype tag, shape, row-major flat data. -/
structure DTensor where
  dtype : Dtype
  shape : List ℕ
  data : List ℚ
  deriving DecidableEq, Repr

namespace DTensor

def numel (t : DTensor) : ℕ := t.data.length

/-- Model of `t.float()` (and `.cpu()`, an identity here): dtype cast; the
half-to-float widening is numerically exact. -/
def toFloat (t : DTensor) : DTensor := { t with dtype := .float32 }

/-- Model of `t.size(i)`. -/
def size (t : DTensor) (i : ℕ) : ℕ := t.shape.getD i 0

/-- Row-major flat index of a multi-index. -/
def flatIdx (shape idx : List ℕ) : ℕ :=
  (shape.zip idx).foldl (fun acc p => acc * p.1 + p.2) 0

def prodL (s : List ℕ) : ℕ := s.foldr (· * ·) 1

/-- Row-major multi-index of a flat index. -/
def unflatten (shape : List ℕ) (q : ℕ) : List ℕ :=
  match shape with
  | [] => []
  | _ :: rest => (q / prodL rest) :: unflatten rest (q % prodL rest)

def get (t : DTensor) (idx : List ℕ) : ℚ := t.data.getD (flatIdx t.shape idx) 0

def ofFn (dt : Dtype) (shape : List ℕ) (f : List ℕ → ℚ) : DTensor :=
  ⟨dt, shape, (List.range (prodL shape)).map fun q => f (unflatten shape q)⟩

/-- Model of `t.reshape(s)`: the element count must match, else a runtime error. -/
def reshape (t : DTensor) (s : List ℕ) : Except Err DTensor :=
  if prodL s = t.numel then .ok ⟨t.dtype, s, t.data⟩ else .error .runtimeError

/-- Model of `t.reshape(t.size(0), -1)`. -/
def reshapeLead (t : DTensor) : DTensor :=
  ⟨t.dtype, [t.size 0, t.numel / t.size 0], t.data⟩

/-- Left-pad a shape with `1`s to length `n`. -/
def padTo (n : ℕ) (s : List ℕ) : List ℕ := List.replicate (n - s.length) 1 ++ s

/-- Right-aligned numpy/torch broadcast of two shapes. -/
def broadcastShapes (s1 s2 : List ℕ) : Option (List ℕ) :=
  let n := max s1.length s2.length
  let p1 := padTo n s1
  let p2 := padTo n s2
  if (p1.zip p2).all fun p => decide (p.1 = p.2 ∨ p.1 = 1 ∨ p.2 = 1) then
    some ((p1.zip p2).map fun p => max p.1 p.2)
  else none

/-- Entry of `t` at a broadcast index of rank `n` (dims of size 1 repeat). -/
def bget (t : DTensor) (n : ℕ) (idx : List ℕ) : ℚ :=
  get t (((idx.zip (padTo n t.shape)).map fun x => x.1 % x.2).drop
    (n - t.shape.length))

/-- Elementwise binary operation with broadcasting. -/
def binop (f : ℚ → ℚ → ℚ) (a b : DTensor) : Except Err DTensor :=
  match broadcastShapes a.shape b.shape with
  | none => .error .runtimeError
  | some s => .ok (ofFn a.dtype s fun idx => f (bget a s.length idx)
      (bget b s.length idx))

/-- Model of `a + b`. -/
def add (a b : DTensor) : Except Err DTensor := binop (· + ·) a b

/-- Model of the elementwise `a * b`. -/
def hadamard (a b : DTensor) : Except Err DTensor := binop (· * ·) a b

/-- Model of `t * scale` with a scalar. -/
def smul (c : ℚ) (t : DTensor) : DTensor :=
  { t with data := t.data.map (c * ·) }

/-- Model of the 2-D product `a @ b`. -/
def matmul (a b : DTensor) : Except Err DTensor :=
  match a.shape, b.shape with
  | [m, n], [n2, p] =>
    if n = n2 then
      .ok (ofFn a.dtype [m, p] fun idx =>
        match idx with
        | [i, j] => (((List.range n).map fun s => a.get [i, s] * b.get [s, j]).sum)
        | _ => 0)
    else .error .runtimeError
  | _, _ => .error .runtimeError

/-- Scalar value of a one-element tensor (`alpha` arithmetic). -/
def item (t : DTensor) : ℚ := t.data.headD 0

/-- Python truthiness of an optional tensor: `None` is falsy, a
one-element tensor is its boolean value, and a larger tensor raises
`RuntimeError: Boolean value of Tensor with more than one element is
ambiguous`. -/
def truthy : Option DTensor → Except Err Bool
  | none => .ok false
  | some t =>
      if t.numel = 1 then .ok (decide (t.item ≠ 0)) else .error .runtimeError

/-- Model of `t.unsqueeze(p)`. -/
def unsqueeze (t : DTensor) (p : ℕ) : DTensor :=
  { t with shape := t.shape.take p ++ 1 :: t.shape.drop p }

/-- Model of `torch.kron(a, b)` with shapes right-aligned by leading `1`s. -/
def kron (a b : DTensor) : DTensor :=
  let n := max a.shape.length b.shape.length
  let p1 := padTo n a.shape
  let p2 := padTo n b.shape
  ofFn a.dtype ((p1.zip p2).map fun p => p.1 * p.2) fun idx =>
    get a (((idx.zip p2).map fun x => x.1 / x.2).drop (n - a.shape.length)) *
    get b (((idx.zip p2).map fun x => x.1 % x.2).drop (n - b.shape.length))

end DTensor

/-- Lines 349-354: `cp_weight_from_conv(up, down, mid)` — reshape `up` and
`down` to 2-D, then `torch.einsum('m n w h, i m, n j -> i j w h', mid, up,
down)`. -/
def cp_weight_from_conv (up down mid : DTensor) : Except Err DTensor := do
  let up2 ← up.reshape [up.size 0, up.size 1]
  let down2 ← down.reshape [down.size 0, down.size 1]
  match mid.shape, up2.shape, down2.shape with
  | [m, n, w, h], [i, m2], [n2, j] =>
    if m2 = m ∧ n2 = n then
      .ok (DTensor.ofFn mid.dtype [i, j, w, h] fun idx =>
        match idx with
        | [a, b, c, d] =>
          ((List.range m).map fun x =>
            ((List.range n).map fun y =>
              mid.get [x, y, c, d] * up2.get [a, x] * down2.get [y, b]).sum).sum
        | _ => 0)
    else .error .runtimeError
  | _, _, _ => .error .runtimeError

/-- Lines 356-360: `cp_weight(wa, wb, t)` — einsum
`'i j k l, j r -> i r k l'` with `wb`, then `'i j k l, i r -> r j k l'`
with `wa`. -/
def cp_weight (wa wb t : DTensor) : Except Err DTensor :=
  match t.shape, wb.shape, wa.shape with
  | [i, j, k, l], [j2, r], [i2, r2] =>
    if j2 = j ∧ i2 = i then
      .ok (DTensor.ofFn t.dtype [r2, r, k, l] fun idx =>
        match idx with
        | [a, b, c, d] =>
          ((List.range i).map fun x =>
            ((List.range j).map fun y =>
              t.get [x, y, c, d] * wb.get [y, b] * wa.get [x, a]).sum).sum
        | _ => 0)
    else .error .runtimeError
  | _, _, _ => .error .runtimeError

/-- The `(kind, params)` pair returned by `get_module` (lines 302-346) as
a tagged union: tensors read with `dict[k]` are mandatory fields, those
read with `dict.get(k, None)` are optional.  `ia3.on_input` defaults to
the Python constant `False`, modelled as `none`. -/
inductive GotModule where
  | locon (up down : DTensor) (mid alpha : Option DTensor)
  | hada (w1a w1b w2a w2b : DTensor) (t1 t2 alpha : Option DTensor)
  | ia3 (weight : DTensor) (on_input : Option DTensor)
  | kron (w1 w1a w1b w2 w2a w2b t1 t2 alpha : Option DTensor)
  | full (diff : DTensor) (diff_b : Option DTensor)
  | norm (w_norm : DTensor) (b_norm : Option DTensor)
  | none
  deriving DecidableEq, Repr

/-- Model of `lyco_state_dict.get(k, None)` on the flat state mapping. -/
def sdGet (sd : List (String × DTensor)) (k : String) : Option DTensor :=
  (sd.find? fun p => decide (p.1 = k)).map Prod.snd

/-- Lines 302-346 (`get_module`): dispatch on which suffix keys are
present; a guarded branch whose companion mandatory key is missing is a
Python `KeyError`.  When nothing matches, the `'None'` kind with an empty
tuple is returned. -/
def get_module (sd : List (String × DTensor)) (lora_name : String) :
    Except Err GotModule :=
  if (sdGet sd (lora_name ++ ".lora_up.weight")).isSome then
    match sdGet sd (lora_name ++ ".lora_up.weight"),
        sdGet sd (lora_name ++ ".lora_down.weight") with
    | some up, some down =>
      .ok (.locon up down (sdGet sd (lora_name ++ ".lora_mid.weight"))
        (sdGet sd (lora_name ++ ".alpha")))
    | _, _ => .error .keyError
  else if (sdGet sd (lora_name ++ ".hada_w1_a")).isSome then
    match sdGet sd (lora_name ++ ".hada_w1_a"),
        sdGet sd (lora_name ++ ".hada_w1_b"),
        sdGet sd (lora_name ++ ".hada_w2_a"),
        sdGet sd (lora_name ++ ".hada_w2_b") with
    | some w1a, some w1b, some w2a, some w2b =>
      .ok (.hada w1a w1b w2a w2b (sdGet sd (lora_name ++ ".hada_t1"))
        (sdGet sd (lora_name ++ ".hada_t2")) (sdGet sd (lora_name ++ ".alpha")))
    | _, _, _, _ => .error .keyError
  else if (sdGet sd (lora_name ++ ".weight")).isSome then
    match sdGet sd (lora_name ++ ".weight") with
    | some w => .ok (.ia3 w (sdGet sd (lora_name ++ ".on_input")))
    | _ => .error .keyError
  else if (sdGet sd (lora_name ++ ".lokr_w1")).isSome ∨
      (sdGet sd (lora_name ++ ".lokr_w1_a")).isSome then
    .ok (.kron (sdGet sd (lora_name ++ ".lokr_w1"))
      (sdGet sd (lora_name ++ ".lokr_w1_a"))
      (sdGet sd (lora_name ++ ".lokr_w1_b"))
      (sdGet sd (lora_name ++ ".lokr_w2"))
      (sdGet sd (lora_name ++ ".lokr_w2_a"))
      (sdGet sd (lora_name ++ ".lokr_w2_b"))
      (sdGet sd (lora_name ++ ".lokr_t1"))
      (sdGet sd (lora_name ++ ".lokr_t2"))
      (sdGet sd (lora_name ++ ".alpha")))
  else if (sdGet sd (lora_name ++ ".diff")).isSome then
    match sdGet sd (lora_name ++ ".diff") with
    | some d => .ok (.full d (sdGet sd (lora_name ++ ".diff_b")))
    | _ => .error .keyError
  else if (sdGet sd (lora_name ++ ".w_norm")).isSome then
    match sdGet sd (lora_name ++ ".w_norm") with
    | some w => .ok (.norm w (sdGet sd (lora_name ++ ".b_norm")))
    | _ => .error .keyError
  else .ok .none

/-- Lines 363-435 (`rebuild_weight`) over dynamic tensors.  Scalar
arithmetic with the one-element `alpha` tensor is rational arithmetic.
The bare `if w1b` / `if t1` / `if t2` on the `kron` path are Python
truthiness tests on tensors (`DTensor.truthy`), unlike the explicit
`is not None` tests elsewhere. -/
def rebuild_weight (params : GotModule)
    (orig_weight orig_bias : Option DTensor) (scale : ℚ) :
    Except Err (Option DTensor × Option DTensor) :=
  match orig_weight with
  | .none => .ok (orig_weight, orig_bias)
  | .some ow =>
    match params with
    | .locon up down mid alpha => do
      let scale := match alpha with
        | some a => scale * (a.item / (up.size 1 : ℚ))
        | none => scale
      let rebuild ← match mid with
        | some m => cp_weight_from_conv up down m
        | none => (DTensor.reshapeLead up).matmul (DTensor.reshapeLead down)
      let rb ← rebuild.reshape ow.shape
      let merged ← ow.add (DTensor.smul scale rb)
      .ok (some merged, orig_bias)
    | .hada w1a w1b w2a w2b t1 t2 alpha => do
      let scale := match alpha with
        | some a => scale * (a.item / (w1b.size 0 : ℚ))
        | none => scale
      let rebuild1 ← match t1 with
        | some t => cp_weight w1a w1b t
        | none => w1a.matmul w1b
      let rebuild2 ← match t2 with
        | some t => cp_weight w2a w2b t
        | none => w2a.matmul w2b
      let prod ← rebuild1.hadamard rebuild2
      let rb ← prod.reshape ow.shape
      let merged ← ow.add (DTensor.smul scale rb)
      .ok (some merged, orig_bias)
    | .ia3 weight on_input => do
      let b ← DTensor.truthy on_input
      let weight := if b then weight
        else ⟨weight.dtype, [weight.numel, 1], weight.data⟩
      let wxo ← weight.hadamard ow
      let merged ← ow.add (DTensor.smul scale wxo)
      .ok (some merged, orig_bias)
    | .kron w1 w1a w1b w2 w2a w2b t1 t2 alpha => do
      let scale ← if alpha.isSome ∧ (w1b.isSome ∨ w2b.isSome) then do
          let tb ← DTensor.truthy w1b
          let denom ←
            if tb then
              match w1b with
              | some t => pure (t.size 0)
              | none => .error .attributeError
            else
              match w2b with
              | some t => pure (t.size 0)
              | none => .error .attributeError
          pure (scale * (((alpha.map DTensor.item).getD 0) / (denom : ℚ)))
        else pure scale
      let w1 ← if w1a.isSome ∧ w1b.isSome then do
          let bt1 ← DTensor.truthy t1
          let v ←
            if bt1 then
              match w1a, w1b, t1 with
              | some a, some b, some t => cp_weight a b t
              | _, _, _ => .error .attributeError
            else
              match w1a, w1b with
              | some a, some b => a.matmul b
              | _, _ => .error .attributeError
          pure (some v)
        else pure w1
      let w2 ← if w2a.isSome ∧ w2b.isSome then do
          let bt2 ← DTensor.truthy t2
          let v ←
            if bt2 then
              match w2a, w2b, t2 with
              | some a, some b, some t => cp_weight a b t
              | _, _, _ => .error .attributeError
            else
              match w2a, w2b with
              | some a, some b => a.matmul b
              | _, _ => .error .attributeError
          pure (some v)
        else pure w2
      let w2v ← match w2 with
        | some t => pure t
        | none => .error .attributeError
      let w1 ← if w2v.shape.length = 4 then
          match w1 with
          | some t => pure (some ((t.unsqueeze 2).unsqueeze 2))
          | none => .error .attributeError
        else pure w1
      let w1v ← match w1 with
        | some t => pure t
        | none => .error .typeError
      let rb ← (DTensor.kron w1v w2v).reshape ow.shape
      let merged ← ow.add (DTensor.smul scale rb)
      .ok (some merged, orig_bias)
    | .full diff diff_b => do
      let rebuild ← diff.reshape ow.shape
      let rebuild_b ← match orig_bias with
        | some ob =>
          match diff_b with
          | some db => do
              let v ← db.reshape ob.shape
              pure (some v)
          | none => .error .attributeError
        | none => pure (none : Option DTensor)
      let merged ← ow.add (DTensor.smul scale rebuild)
      let merged_bias ← match rebuild_b, orig_bias with
        | some rb, some ob => do
            let mb ← ob.add (DTensor.smul scale rb)
            pure (some mb)
        | _, _ => pure orig_bias
      .ok (some merged, merged_bias)
    | .norm w_norm b_norm => do
      let rebuild ← w_norm.reshape ow.shape
      let rebuild_b ← match b_norm with
        | some bn =>
          match orig_bias with
          | some ob => bn.reshape ob.shape
          | none => .error .attributeError
        | none => .error .attributeError
      let merged ← ow.add (DTensor.smul scale rebuild)
      let merged_bias ← match orig_bias with
        | some ob => do
            let mb ← ob.add (DTensor.smul scale rebuild_b)
            pure (some mb)
        | none => .error .attributeError
      .ok (some merged, merged_bias)
    | .none => .error .notImplementedError

/-- A candidate Linear/Conv2d submodule of the base model: a weight and
an optional bias. -/
structure PyModule where
  weight : DTensor
  bias : Option DTensor
  deriving DecidableEq, Repr

/-- The per-candidate-module body of `merge_state_dict` (lines 478-486):
look the flat key up with `get_module`, call `rebuild_weight` with the
module's weight and bias, and `copy_` any non-`None` results back into
the module (`copy_` keeps the destination dtype and requires matching
shapes here). -/
def merge_layer (sd : List (String × DTensor)) (lora_name : String)
    (m : PyModule) (scale : ℚ) : Except Err PyModule := do
  let gm ← get_module sd lora_name
  let res ← rebuild_weight gm (some m.weight) m.bias scale
  let weight ← match res.1 with
    | some r =>
        if r.shape = m.weight.shape then pure { m.weight with data := r.data }
        else .error .runtimeError
    | none => pure m.weight
  let bias ← match res.2 with
    | some rb =>
        match m.bias with
        | some b =>
            if rb.shape = b.shape then pure (some { b with data := rb.data })
            else .error .runtimeError
        | none => .error .attributeError
    | none => pure m.bias
  .ok ⟨weight, bias⟩

/-- The dtype/device conversion pass at the top of `merge` (lines
501-505): every entry of `lyco_state_dict` is reassigned in place; for
`device='cpu'` the new value is `v.float().cpu()` (`.cpu()` is the
identity for host tensors; the non-cpu branch, which downcasts to the
base model's dtype, is floating-point behaviour not modelled here). -/
def merge_convert_cpu (sd : List (String × DTensor)) :
    List (String × DTensor) :=
  sd.map fun p => (p.1, p.2.toFloat)

/-! ## The Conv2d branch of `extract_lora` (lines 149-198)

Shaped embedding of the per-layer extraction including the `small_conv`
recompression, exposing the residual `diff` that line 205 would feed into
the optional bias sparsification. -/

/-- Model of `t.transpose(0, 1)` on a 4-D tensor. -/
def transpose01 {a b c d : ℕ} (t : Tensor4 a b c d) : Tensor4 b a c d :=
  fun i j x y => t j i x y

/-- Model of the einsum with index spec i j k l, j r, p i to p r k l on
lines 194-197. -/
def einsum_mid {ri r2 k l inc out : ℕ} (c : Tensor4 ri r2 k l)
    (a2 : Fin r2 → Fin inc → ℚ) (b2 : Fin out → Fin ri → ℚ) :
    Tensor4 out inc k l :=
  fun p q x y => ∑ i : Fin ri, ∑ j : Fin r2, c i j x y * a2 j q * b2 p i

/-- Model of `torch.max(torch.abs(diff))` over a 4-D tensor. -/
def absMax4 {o i k l : ℕ} (t : Tensor4 o i k l) : ℚ :=
  maxList (List.ofFn fun a => maxList (List.ofFn fun b =>
    maxList (List.ofFn fun c => maxList (List.ofFn fun d => |t a b c d|))))

/-- Outcome of the Conv2d branch of `extract_lora`: skipped (allclose or
min_diff early return), a `full` diff entry, a plain low-rank entry, or
the `small_conv` recompressed entry.  `residual` is the `diff` variable
as it stands after line 198, the tensor the optional bias sparsification
(lines 204-212) would consume. -/
inductive LoraConvResult (out inc k l : ℕ) where
  | skipped
  | fullD (w : Tensor4 out inc k l)
  | low (r : ℕ) (down : Tensor4 r inc k l) (up : Tensor4 out r 1 1)
      (residual : Tensor4 out inc k l)
  | lowMid (r r2 : ℕ) (down : Tensor4 r2 inc 1 1) (mid : Tensor4 r r2 k l)
      (up : Tensor4 out r 1 1) (residual : Tensor4 out inc k l)

/-- Lines 149-198 (`extract_lora`, Conv2d case): `root_weight` is the
fine-tuned module's weight and `child_weight` the base module's weight;
`diff = root_weight - child_weight`.  `torch.allclose` is modelled as
exact equality (exact arithmetic).  The svd oracle for the second
`extract_conv` call depends on the first call's stored rank, hence the
oracle family `svd2`. -/
def extract_lora_conv {out inc k l : ℕ}
    (root_weight child_weight : Tensor4 out inc k l)
    (svd1 : SVDData out (inc * (k * l)))
    (svd2 : (r : ℕ) → SVDData inc (r * (k * l)))
    (mode_lin mode_conv : ExtractMode) (small_conv : Bool) (min_diff : ℚ) :
    Except Err (LoraConvResult out inc k l) :=
  if root_weight = child_weight then .ok .skipped
  else
    let diff := root_weight - child_weight
    if 0 < min_diff ∧ absMax4 diff < min_diff then .ok .skipped
    else
      let is_linear := k = 1 ∧ l = 1
      match extract_conv diff svd1
          (if is_linear then mode_lin else mode_conv) false with
      | .error e => .error e
      | .ok (.full w) => .ok (.fullD w)
      | .ok (.low r down up diff2) =>
        if small_conv = true ∧ ¬ is_linear then
          match extract_conv (transpose01 down) (svd2 r) (.fixed r) true with
          | .error e => .error e
          | .ok (.full _) => .error .runtimeError
          | .ok (.low r2 down2 up2 _) =>
            let extract_a2 := transpose01 up2
            let extract_c := transpose01 down2
            let residual := root_weight -
              einsum_mid extract_c (flatten11 extract_a2) (flatten11 up)
            .ok (.lowMid r r2 extract_a2 extract_c up residual)
        else .ok (.low r down up diff2)

/-- The residual (`diff` after line 198) carried by an extraction
outcome, if any. -/
def residualOf {o i k l : ℕ} :
    LoraConvResult o i k l → Option (Tensor4 o i k l)
  | .low _ _ _ res => some res
  | .lowMid _ _ _ _ _ res => some res
  | _ => Option.none

/-- The low-rank reconstruction encoded by an extraction outcome: the
flat `up @ down` product for the plain path, the mid-chain einsum for
the `small_conv` path. -/
def reconOf {o i k l : ℕ} :
    LoraConvResult o i k l → Option (Tensor4 o i k l)
  | .low _ down up _ =>
      some (unreshape2 (matProd (flatten11 up) (reshapeRows down)))
  | .lowMid _ _ down mid up _ =>
      some (einsum_mid mid (flatten11 down) (flatten11 up))
  | _ => Option.none

/-- Projection `residualOf` through the `Except` layer. -/
def residualOfE {o i k l : ℕ}
    (e : Except Err (LoraConvResult o i k l)) : Option (Tensor4 o i k l) :=
  match e with
  | .ok r => residualOf r
  | .error _ => Option.none

/-- Projection `reconOf` through the `Except` layer. -/
def reconOfE {o i k l : ℕ}
    (e : Except Err (LoraConvResult o i k l)) : Option (Tensor4 o i k l) :=
  match e with
  | .ok r => reconOf r
  | .error _ => Option.none

/-- Concrete data for the C5 witness. -/
def c5svd : SVDData 2 2 where
  U := 1
  S := fun _ => 0
  Vh := 1

def c5svd4 : SVDData 2 (2 * (1 * 1)) where
  U := 1
  S := fun _ => 0
  Vh := 1

def c5W : Matrix (Fin 2) (Fin 2) ℚ := !![1, 2; 3, 4]

def c5W4 : Tensor4 2 2 1 1 := fun _ _ _ _ => 1

/-! Concrete data for claim C6: a 3-to-1-channel 2×2 convolution whose
fine-tuned weight differs from the base by a rank-1 delta that the
extraction recovers exactly.  The `hadamard4` matrix is a rational
orthogonal 4×4 matrix whose first row is constant `1/2`, which keeps the
oracle svd exact over ℚ. -/

def hadamard4 : Matrix (Fin 4) (Fin 4) ℚ :=
  !![1/2, 1/2, 1/2, 1/2;
     1/2, -1/2, 1/2, -1/2;
     1/2, 1/2, -1/2, -1/2;
     1/2, -1/2, -1/2, 1/2]

/-- The fine-tuned conv weight: base plus `2` on channel 0. -/
def c6F : Tensor4 3 1 2 2 := fun p _ _ _ => if p = 0 then 3 else 1

/-- The base conv weight. -/
def c6B : Tensor4 3 1 2 2 := fun _ _ _ _ => 1

def c6svd1 : SVDData 3 (1 * (2 * 2)) where
  U := 1
  S := fun i => if (i : ℕ) = 0 then 4 else 0
  Vh := hadamard4

def c6svd2 : (r : ℕ) → SVDData 1 (r * (2 * 2))
  | 1 => { U := 1, S := fun _ => 1, Vh := hadamard4 }
  | _ => { U := 1, S := fun _ => 0, Vh := 1 }

theorem smallestReach_nil (t : ℚ) : smallestReach t [] = 0 := rfl

theorem smallestReach_cons (t x : ℚ) (xs : List ℚ) :
    smallestReach t (x :: xs) =
      if t ≤ 0 then 0 else smallestReach (t - x) xs + 1 := rfl

theorem smallestReach_nonpos {t : ℚ} (ht : t ≤ 0) (l : List ℚ) :
    smallestReach t l = 0 := by
  cases l with
  | nil => rfl
  | cons x xs => simp [smallestReach, ht]

theorem cumsum_nonneg {S : List ℚ} (h : ∀ x ∈ S, 0 ≤ x) :
    ∀ c ∈ cumsum S, 0 ≤ c := by
  induction S with
  | nil => intro c hc; simp [cumsum] at hc
  | cons x xs ih =>
      intro c hc
      simp only [cumsum, List.mem_cons, List.mem_map] at hc
      rcases hc with rfl | ⟨c', hc', rfl⟩
      · exact h _ (List.mem_cons_self _ _)
      · have hx : 0 ≤ x := h x (List.mem_cons_self _ _)
        have hc0 : 0 ≤ c' := ih (fun y hy => h y (List.mem_cons_of_mem _ hy)) c' hc'
        linarith

/-- Key arithmetic fact behind claim C3: the count of inclusive cumulative
sums strictly below a positive, reachable target `t` is one less than the
length of the smallest prefix whose sum reaches `t`. -/
theorem countP_cumsum_add_one {S : List ℚ} {t : ℚ}
    (hnn : ∀ x ∈ S, 0 ≤ x) (ht : 0 < t) (hts : t ≤ S.sum) :
    ((cumsum S).countP fun c => decide (c < t)) + 1 = smallestReach t S := by
  induction S generalizing t with
  | nil =>
      exfalso
      simp only [List.sum_nil] at hts
      linarith
  | cons x xs ih =>
      have hx0 : 0 ≤ x := hnn x (List.mem_cons_self _ _)
      have hxs : ∀ y ∈ xs, 0 ≤ y := fun y hy => hnn y (List.mem_cons_of_mem _ hy)
      have hsum : t ≤ x + xs.sum := by simpa using hts
      have hmap : ((cumsum xs).map (x + ·)).countP (fun c => decide (c < t)) =
          (cumsum xs).countP (fun c => decide (c < t - x)) := by
        rw [List.countP_map]
        apply List.countP_congr
        intro c _
        simp only [Function.comp_apply, decide_eq_true_eq]
        constructor <;> intro hlt <;> linarith
      have hcs : cumsum (x :: xs) = x :: (cumsum xs).map (x + ·) := rfl
      rw [hcs, smallestReach_cons, if_neg (not_le.mpr ht)]
      by_cases hx : x < t
      · have htx : 0 < t - x := by linarith
        have htxs : t - x ≤ xs.sum := by linarith
        have hih := ih hxs htx htxs
        rw [List.countP_cons_of_pos _ _ (by simpa using hx), hmap]
        omega
      · have htx : t - x ≤ 0 := by linarith
        have hz : (cumsum xs).countP (fun c => decide (c < t - x)) = 0 := by
          rw [List.countP_eq_zero]
          intro c hc
          have hc0 : 0 ≤ c := cumsum_nonneg hxs c hc
          simp only [decide_eq_true_eq]
          intro hlt
          linarith
        rw [List.countP_cons_of_neg _ _ (by simpa using hx), hmap, hz,
          smallestReach_nonpos htx]

/-- Key fact behind claim C4: on a descending-sorted list, the count of
elements strictly above a threshold is the length of the maximal prefix of
elements strictly above it. -/
theorem countP_eq_takeWhile_length {S : List ℚ} {t : ℚ}
    (hs : S.Sorted (· ≥ ·)) :
    S.countP (fun s => decide (t < s)) =
      (S.takeWhile fun s => decide (t < s)).length := by
  induction S with
  | nil => rfl
  | cons x xs ih =>
      rw [List.sorted_cons] at hs
      obtain ⟨hall, hxs⟩ := hs
      by_cases hx : t < x
      · rw [List.countP_cons_of_pos _ _ (by simpa using hx), ih hxs,
          List.takeWhile_cons]
        simp [hx]
      · have hz : xs.countP (fun s => decide (t < s)) = 0 := by
          rw [List.countP_eq_zero]
          intro y hy
          have : y ≤ x := hall y hy
          simp only [decide_eq_true_eq]
          intro hlt
          exact hx (lt_of_lt_of_le hlt this)
        rw [List.countP_cons_of_neg _ _ (by simpa using hx), hz,
          List.takeWhile_cons]
        simp [hx]

/-! ### Exact recovery of a low-rank matrix by the truncated SVD -/

/-- Entrywise expansion of `U Σ Vh` as a sum over the diagonal length. -/
theorem mul_sigma_mul_apply {m n : ℕ} (U : Matrix (Fin m) (Fin m) ℚ)
    (S : Fin (min m n) → ℚ) (Vh : Matrix (Fin n) (Fin n) ℚ)
    (i : Fin m) (q : Fin n) :
    (U * sigmaMat S * Vh) i q =
      ∑ c in Finset.range (min m n),
        (if h : c < min m n then
          U i ⟨c, lt_of_lt_of_le h (min_le_left _ _)⟩ * S ⟨c, h⟩ *
            Vh ⟨c, lt_of_lt_of_le h (min_le_right _ _)⟩ q
        else 0) := by
  have hinner : ∀ b : Fin n, (U * sigmaMat S) i b =
      (if h : (b : ℕ) < min m n then
        U i ⟨b, lt_of_lt_of_le h (min_le_left _ _)⟩ * S ⟨b, h⟩ else 0) := by
    intro b
    rw [Matrix.mul_apply]
    by_cases hb : (b : ℕ) < min m n
    · rw [dif_pos hb]
      have hbm : (b : ℕ) < m := lt_of_lt_of_le hb (min_le_left _ _)
      rw [Finset.sum_eq_single (⟨(b : ℕ), hbm⟩ : Fin m)]
      · show U i _ * sigmaMat S _ b = _
        simp [sigmaMat, hb]
      · intro a _ ha
        have hns : ¬((a : ℕ) = (b : ℕ) ∧ (a : ℕ) < min m n) := by
          intro hcon
          exact ha (Fin.ext hcon.1)
        show U i a * sigmaMat S a b = 0
        simp only [sigmaMat, Matrix.of_apply]
        rw [dif_neg hns, mul_zero]
      · intro h
        exact absurd (Finset.mem_univ _) h
    · rw [dif_neg hb]
      apply Finset.sum_eq_zero
      intro a _
      have hns : ¬((a : ℕ) = (b : ℕ) ∧ (a : ℕ) < min m n) := by
        intro hcon
        exact hb (hcon.1 ▸ hcon.2)
      show U i a * sigmaMat S a b = 0
      simp only [sigmaMat, Matrix.of_apply]
      rw [dif_neg hns, mul_zero]
  rw [Matrix.mul_apply]
  calc ∑ b : Fin n, (U * sigmaMat S) i b * Vh b q
      = ∑ b : Fin n,
          (if h : (b : ℕ) < min m n then
            U i ⟨b, lt_of_lt_of_le h (min_le_left _ _)⟩ * S ⟨b, h⟩ *
              Vh ⟨b, lt_of_lt_of_le h (min_le_right _ _)⟩ q
          else 0) := by
        apply Finset.sum_congr rfl
        intro b _
        rw [hinner b]
        by_cases hb : (b : ℕ) < min m n
        · rw [dif_pos hb, dif_pos hb]
        · rw [dif_neg hb, dif_neg hb, zero_mul]
    _ = ∑ c in Finset.range n,
          (if h : c < min m n then
            U i ⟨c, lt_of_lt_of_le h (min_le_left _ _)⟩ * S ⟨c, h⟩ *
              Vh ⟨c, lt_of_lt_of_le h (min_le_right _ _)⟩ q
          else 0) := by
        rw [← Fin.sum_univ_eq_sum_range]
    _ = ∑ c in Finset.range (min m n),
          (if h : c < min m n then
            U i ⟨c, lt_of_lt_of_le h (min_le_left _ _)⟩ * S ⟨c, h⟩ *
              Vh ⟨c, lt_of_lt_of_le h (min_le_right _ _)⟩ q
          else 0) := by
        refine (Finset.sum_subset (Finset.range_subset.mpr (min_le_right m n))
          ?_).symm
        intro c _ hc
        rw [Finset.mem_range] at hc
        exact dif_neg hc

theorem sigmaMat_apply_eq {m n : ℕ} (S : Fin (min m n) → ℚ)
    (i : Fin m) (j : Fin n) (h : (i : ℕ) = (j : ℕ))
    (hlt : (i : ℕ) < min m n) : sigmaMat S i j = S ⟨i, hlt⟩ := by
  simp only [sigmaMat, Matrix.of_apply]
  rw [dif_pos ⟨h, hlt⟩]

theorem sigmaMat_apply_ne {m n : ℕ} (S : Fin (min m n) → ℚ)
    (i : Fin m) (j : Fin n)
    (h : ¬((i : ℕ) = (j : ℕ) ∧ (i : ℕ) < min m n)) : sigmaMat S i j = 0 := by
  simp only [sigmaMat, Matrix.of_apply]
  rw [dif_neg h]

/-- If `M` factors through an inner dimension `r`, its singular values
from index `r` on vanish: otherwise the leading `(c+1) × (c+1)` diagonal
block of `Σ = Uᵀ M Vhᵀ` would be an invertible matrix factoring through
rank `r ≤ c`. -/
theorem svd_tail_zero {m n r : ℕ} (svd : SVDData m n)
    (M : Matrix (Fin m) (Fin n) ℚ) (hsvd : IsSVD svd M)
    (A : Matrix (Fin m) (Fin r) ℚ) (B : Matrix (Fin r) (Fin n) ℚ)
    (hM : M = A * B) :
    ∀ c : Fin (min m n), r ≤ (c : ℕ) → svd.S c = 0 := by
  obtain ⟨hUSV, hUU, hVV, hdesc, hnn⟩ := hsvd
  intro c hc
  by_contra hne
  have hpos : 0 < svd.S c := lt_of_le_of_ne (hnn c) (Ne.symm hne)
  have hposall : ∀ a : Fin (min m n), (a : ℕ) ≤ (c : ℕ) → 0 < svd.S a := by
    intro a ha
    exact lt_of_lt_of_le hpos (hdesc a c ha)
  have h1 : svd.U.transpose * M * svd.Vh.transpose = sigmaMat svd.S := by
    rw [hUSV,
      ← Matrix.mul_assoc svd.U.transpose (svd.U * sigmaMat svd.S) svd.Vh,
      Matrix.mul_assoc (svd.U.transpose * (svd.U * sigmaMat svd.S)) svd.Vh
        svd.Vh.transpose,
      hVV, Matrix.mul_one,
      ← Matrix.mul_assoc svd.U.transpose svd.U (sigmaMat svd.S),
      hUU, Matrix.one_mul]
  have hsigma : sigmaMat svd.S =
      (svd.U.transpose * A) * (B * svd.Vh.transpose) := by
    rw [← h1, hM,
      ← Matrix.mul_assoc svd.U.transpose A B,
      Matrix.mul_assoc (svd.U.transpose * A) B svd.Vh.transpose]
  have hk1 : (c : ℕ) + 1 ≤ min m n := c.isLt
  have hkm : (c : ℕ) + 1 ≤ m := le_trans hk1 (min_le_left _ _)
  have hkn : (c : ℕ) + 1 ≤ n := le_trans hk1 (min_le_right _ _)
  set E : Matrix (Fin ((c : ℕ) + 1)) (Fin ((c : ℕ) + 1)) ℚ :=
    Matrix.of fun a b =>
      sigmaMat svd.S ⟨a, lt_of_lt_of_le a.isLt hkm⟩
        ⟨b, lt_of_lt_of_le b.isLt hkn⟩ with hEdef
  have hE_diag : E = Matrix.diagonal
      (fun a : Fin ((c : ℕ) + 1) => svd.S ⟨a, lt_of_lt_of_le a.isLt hk1⟩) := by
    ext a b
    rw [hEdef]
    by_cases hab : a = b
    · subst hab
      rw [Matrix.diagonal_apply_eq, Matrix.of_apply]
      exact sigmaMat_apply_eq svd.S _ _ rfl (lt_of_lt_of_le a.isLt hk1)
    · have hab' : (a : ℕ) ≠ (b : ℕ) := fun h => hab (Fin.ext h)
      rw [Matrix.diagonal_apply_ne _ hab, Matrix.of_apply]
      exact sigmaMat_apply_ne svd.S _ _ (fun h => hab' h.1)
  have hE_factor : E =
      (Matrix.of fun (a : Fin ((c : ℕ) + 1)) (j : Fin r) =>
        (svd.U.transpose * A) ⟨a, lt_of_lt_of_le a.isLt hkm⟩ j) *
      (Matrix.of fun (j : Fin r) (b : Fin ((c : ℕ) + 1)) =>
        (B * svd.Vh.transpose) j ⟨b, lt_of_lt_of_le b.isLt hkn⟩) := by
    ext a b
    rw [Matrix.mul_apply]
    have : E a b = ((svd.U.transpose * A) * (B * svd.Vh.transpose))
        ⟨a, lt_of_lt_of_le a.isLt hkm⟩ ⟨b, lt_of_lt_of_le b.isLt hkn⟩ := by
      rw [hEdef, ← hsigma]
      rfl
    rw [this, Matrix.mul_apply]
    rfl
  have hdet : E.det ≠ 0 := by
    rw [hE_diag, Matrix.det_diagonal]
    apply Finset.prod_ne_zero_iff.mpr
    intro a _
    exact ne_of_gt (hposall ⟨a, lt_of_lt_of_le a.isLt hk1⟩
      (Nat.lt_succ_iff.mp a.isLt))
  have hunit : IsUnit E := (Matrix.isUnit_iff_isUnit_det E).mpr
    (isUnit_iff_ne_zero.mpr hdet)
  have hrankE : E.rank = (c : ℕ) + 1 := by
    rw [Matrix.rank_of_isUnit E hunit, Fintype.card_fin]
  have hrankle : E.rank ≤ r := by
    rw [hE_factor]
    exact le_trans (Matrix.rank_mul_le_left _ _)
      (le_trans (Matrix.rank_le_card_width _) (by simp))
  omega

/-- The truncated reconstruction is exact once the tail singular values
vanish: `U[:, :r'] diag(S[:r']) Vh[:r', :] = M` for any `r' ≥ r`. -/
theorem matProd_trunc_eq {m n r : ℕ} (svd : SVDData m n)
    (M : Matrix (Fin m) (Fin n) ℚ)
    (hUSV : M = svd.U * sigmaMat svd.S * svd.Vh)
    (htail : ∀ c : Fin (min m n), r ≤ (c : ℕ) → svd.S c = 0)
    (r' : ℕ) (hr : r ≤ r') :
    matProd (truncUp svd.U svd.S r') (truncDown svd.Vh r') = M := by
  ext i q
  have hexp := mul_sigma_mul_apply svd.U svd.S svd.Vh i q
  show (∑ j : Fin r', truncUp svd.U svd.S r' i j * truncDown svd.Vh r' j q)
      = M i q
  have hterm : ∀ j : Fin r',
      truncUp svd.U svd.S r' i j * truncDown svd.Vh r' j q =
      (if h : (j : ℕ) < min m n then
        svd.U i ⟨j, lt_of_lt_of_le h (min_le_left _ _)⟩ * svd.S ⟨j, h⟩ *
          svd.Vh ⟨j, lt_of_lt_of_le h (min_le_right _ _)⟩ q
      else 0) := by
    intro j
    by_cases hj : (j : ℕ) < min m n
    · have hjn : (j : ℕ) < n := lt_of_lt_of_le hj (min_le_right _ _)
      rw [dif_pos hj]
      show truncUp svd.U svd.S r' i j * truncDown svd.Vh r' j q = _
      rw [truncUp, truncDown, dif_pos hj, dif_pos hjn]
    · rw [dif_neg hj]
      show truncUp svd.U svd.S r' i j * truncDown svd.Vh r' j q = 0
      rw [truncUp, dif_neg hj, zero_mul]
  calc (∑ j : Fin r', truncUp svd.U svd.S r' i j * truncDown svd.Vh r' j q)
      = ∑ c in Finset.range r',
          (if h : c < min m n then
            svd.U i ⟨c, lt_of_lt_of_le h (min_le_left _ _)⟩ * svd.S ⟨c, h⟩ *
              svd.Vh ⟨c, lt_of_lt_of_le h (min_le_right _ _)⟩ q
          else 0) := by
        rw [← Fin.sum_univ_eq_sum_range]
        exact Finset.sum_congr rfl (fun j _ => hterm j)
    _ = ∑ c in Finset.range (min m n),
          (if h : c < min m n then
            svd.U i ⟨c, lt_of_lt_of_le h (min_le_left _ _)⟩ * svd.S ⟨c, h⟩ *
              svd.Vh ⟨c, lt_of_lt_of_le h (min_le_right _ _)⟩ q
          else 0) := by
        rcases le_total r' (min m n) with h | h
        · apply Finset.sum_subset (Finset.range_subset.mpr h)
          intro x hx hxr
          rw [Finset.mem_range] at hx hxr
          push_neg at hxr
          rw [dif_pos hx, htail ⟨x, hx⟩ (le_trans hr hxr), mul_zero, zero_mul]
        · refine (Finset.sum_subset (Finset.range_subset.mpr h) ?_).symm
          intro x _ hxr
          rw [Finset.mem_range] at hxr
          exact dif_neg hxr
    _ = M i q := by rw [hUSV, hexp]

theorem unreshape2_reshape2 {o i k l : ℕ} (t : Tensor4 o i k l) :
    unreshape2 (reshape2 t) = t := by
  funext a j b c
  simp [unreshape2, reshape2]

theorem reshapeRows_unreshapeRows {r i k l : ℕ}
    (A : Fin r → Fin (i * (k * l)) → ℚ) :
    reshapeRows (unreshapeRows A) = A := by
  funext j q
  simp [reshapeRows, unreshapeRows]

theorem flatten11_expand11 {o r : ℕ} (B : Fin o → Fin r → ℚ) :
    flatten11 (expand11 B) = B := rfl

theorem clamp_rank_eq {out_ch in_ch r : ℕ} (hr1 : 1 ≤ r) (hrin : r ≤ in_ch)
    (hrout : r ≤ out_ch) : clamp_rank out_ch in_ch r = r := by
  unfold clamp_rank
  omega

/-- Claim C2: for a base weight `W` and a perturbation `D` factoring
through rank `r` with `2r < out_ch` (and `r` within both channel counts),
`extract_linear` / `extract_conv` at `mode='fixed', mode_param=r` return a
low-rank pair whose product is exactly `D`, and the `locon` branch of
`rebuild_weight` at `scale=1, alpha=r` returns `W + D`.  Exact rational
arithmetic stands in for the working numeric precision; the svd oracle
satisfies the runtime contract `IsSVD`. -/
theorem extract_roundtrip_lowrank {out_ch in_ch k l r : ℕ}
    (hr1 : 1 ≤ r) (hrout : 2 * r < out_ch) (hrin : r ≤ in_ch)
    (D : Matrix (Fin out_ch) (Fin in_ch) ℚ)
    (A : Matrix (Fin out_ch) (Fin r) ℚ) (B : Matrix (Fin r) (Fin in_ch) ℚ)
    (hD : D = A * B)
    (svd : SVDData out_ch in_ch) (hsvd : IsSVD svd D)
    (W : Matrix (Fin out_ch) (Fin in_ch) ℚ)
    (D4 : Tensor4 out_ch in_ch k l)
    (A4 : Matrix (Fin out_ch) (Fin r) ℚ)
    (B4 : Matrix (Fin r) (Fin (in_ch * (k * l))) ℚ)
    (hD4 : reshape2 D4 = A4 * B4)
    (svd4 : SVDData out_ch (in_ch * (k * l)))
    (hsvd4 : IsSVD svd4 (reshape2 D4))
    (W4 : Tensor4 out_ch in_ch k l) :
    (extract_linear D svd (.fixed r) =
        .ok (.low r (truncDown svd.Vh r) (truncUp svd.U svd.S r)
          (D - matProd (truncUp svd.U svd.S r) (truncDown svd.Vh r))) ∧
      matProd (truncUp svd.U svd.S r) (truncDown svd.Vh r) = D ∧
      rebuild_locon_linear (truncUp svd.U svd.S r) (truncDown svd.Vh r)
        (some (r : ℚ)) W 1 = W + D) ∧
    (extract_conv D4 svd4 (.fixed r) false =
        .ok (.low r (unreshapeRows (truncDown svd4.Vh r))
          (expand11 (truncUp svd4.U svd4.S r))
          (D4 - unreshape2
            (matProd (truncUp svd4.U svd4.S r) (truncDown svd4.Vh r)))) ∧
      unreshape2 (matProd (flatten11 (expand11 (truncUp svd4.U svd4.S r)))
        (reshapeRows (unreshapeRows (truncDown svd4.Vh r)))) = D4 ∧
      rebuild_locon_conv (expand11 (truncUp svd4.U svd4.S r))
        (unreshapeRows (truncDown svd4.Vh r)) (some (r : ℚ)) W4 1 =
          W4 + D4) := by
  have hrle : r ≤ out_ch := by omega
  have hclamp : clamp_rank out_ch in_ch r = r := clamp_rank_eq hr1 hrin hrle
  have hguard : ¬ (out_ch ≤ 2 * r) := by omega
  have hr0 : (r : ℚ) ≠ 0 := Nat.cast_ne_zero.mpr (by omega)
  have htail := svd_tail_zero svd D hsvd A B hD
  have hmat : matProd (truncUp svd.U svd.S r) (truncDown svd.Vh r) = D :=
    matProd_trunc_eq svd D hsvd.1 htail r le_rfl
  have htail4 := svd_tail_zero svd4 (reshape2 D4) hsvd4 A4 B4 hD4
  have hmat4 : matProd (truncUp svd4.U svd4.S r) (truncDown svd4.Vh r) =
      reshape2 D4 :=
    matProd_trunc_eq svd4 (reshape2 D4) hsvd4.1 htail4 r le_rfl
  refine ⟨⟨?_, hmat, ?_⟩, ⟨?_, ?_, ?_⟩⟩
  · simp only [extract_linear, select_rank, hclamp]
    rw [if_neg hguard, hclamp]
  · simp only [rebuild_locon_linear, one_mul, div_self hr0, hmat, one_smul]
  · simp only [extract_conv, select_rank, hclamp]
    rw [if_neg (by simp [hguard]), hclamp]
  · rw [flatten11_expand11, reshapeRows_unreshapeRows, hmat4,
      unreshape2_reshape2]
  · simp only [rebuild_locon_conv, one_mul, div_self hr0, one_smul,
      flatten11_expand11, reshapeRows_unreshapeRows, hmat4,
      unreshape2_reshape2]

theorem extract_roundtrip_lowrank_witness :
    (c2D = c2A * c2B) ∧ IsSVD c2svd c2D ∧
    (reshape2 c2D4 = c2A4 * c2B4) ∧ IsSVD c2svd4 (reshape2 c2D4) ∧
    (rebuild_locon_linear (truncUp c2svd.U c2svd.S 1) (truncDown c2svd.Vh 1)
        (some ((1 : ℕ) : ℚ)) c2W 1 = c2W + c2D ∧
      rebuild_locon_conv (expand11 (truncUp c2svd4.U c2svd4.S 1))
        (unreshapeRows (truncDown c2svd4.Vh 1)) (some ((1 : ℕ) : ℚ)) c2W4 1 =
          c2W4 + c2D4) :=
  have hfact : c2D = c2A * c2B := by
    ext i j
    fin_cases i <;> fin_cases j <;>
      simp [c2D, c2A, c2B, Matrix.mul_apply, Fin.sum_univ_succ]
  have hsvd : IsSVD c2svd c2D :=
    ⟨by
      show c2D = 1 * sigmaMat c2svd.S * 1
      rw [Matrix.one_mul, Matrix.mul_one]
      ext i j
      fin_cases i <;> fin_cases j <;>
        simp [c2D, c2svd, sigmaMat, Matrix.vecHead, Matrix.vecTail],
     by
      show (1 : Matrix (Fin 3) (Fin 3) ℚ).transpose * 1 = 1
      simp,
     by
      show (1 : Matrix (Fin 1) (Fin 1) ℚ) * (1 : Matrix (Fin 1) (Fin 1) ℚ).transpose = 1
      simp,
     fun i j _ => le_refl _,
     fun i => by norm_num [c2svd]⟩
  have hfact4 : reshape2 c2D4 = c2A4 * c2B4 := by
    ext i q
    fin_cases i <;> fin_cases q <;>
      simp [reshape2, c2D4, c2A4, c2B4, Matrix.mul_apply, Fin.sum_univ_succ,
        Matrix.vecHead, Matrix.vecTail]
  have hsvd4 : IsSVD c2svd4 (reshape2 c2D4) :=
    ⟨by
      show reshape2 c2D4 = 1 * sigmaMat c2svd4.S * 1
      rw [Matrix.one_mul, Matrix.mul_one]
      ext i q
      fin_cases i <;> fin_cases q <;>
        simp [reshape2, c2D4, c2svd4, sigmaMat],
     by
      show (1 : Matrix (Fin 3) (Fin 3) ℚ).transpose * 1 = 1
      simp,
     by
      show (1 : Matrix (Fin (1 * (1 * 1))) (Fin (1 * (1 * 1))) ℚ) *
        (1 : Matrix (Fin (1 * (1 * 1))) (Fin (1 * (1 * 1))) ℚ).transpose = 1
      simp,
     fun i j _ => le_refl _,
     fun i => by norm_num [c2svd4]⟩
  have hmain := extract_roundtrip_lowrank (r := 1) (by norm_num) (by norm_num)
    (by norm_num) c2D c2A c2B hfact c2svd hsvd c2W c2D4 c2A4 c2B4
    hfact4 c2svd4 hsvd4 c2W4
  ⟨hfact, hsvd, hfact4, hsvd4, hmain.1.2.2, hmain.2.2.2⟩

/-! ## Claim theorems -/

/-- Claim C1: the spec says a layer whose flat key has no entry in the
factorized state is silently skipped by `merge`, byte-for-byte unchanged.
The code says otherwise: `get_module` returns the `'None'` kind, and
`rebuild_weight` has no branch for it, so the `else: raise
NotImplementedError` fires for every candidate module missing from the
state.  This evaluates the merge body on an empty state dict. -/
theorem merge_missing_key_raises :
    get_module [] "lora_unet_conv_in" = .ok .none ∧
    rebuild_weight .none (some ⟨.float32, [2, 2], [1, 2, 3, 4]⟩)
      (some ⟨.float32, [2], [5, 6]⟩) 1 = .error .notImplementedError ∧
    merge_layer [] "lora_unet_conv_in"
      ⟨⟨.float32, [2, 2], [1, 2, 3, 4]⟩, some ⟨.float32, [2], [5, 6]⟩⟩ 1 =
      .error .notImplementedError :=
  ⟨rfl, rfl, rfl⟩

/-- Claim C3 (amended): in `quantile`/`percentile` mode the selected
pre-clamp rank is the count of inclusive cumulative sums strictly below
`q * sum(S)`; when that target is positive this is one LESS than the
length of the smallest prefix whose sum reaches the target (the claim as
stated is off by one). -/
theorem quantile_rank_amended (S : List ℚ) (q : ℚ) (h0 : 0 ≤ q) (h1 : q ≤ 1)
    (hs : S.Sorted (· ≥ ·)) (hnn : ∀ x ∈ S, 0 ≤ x) (hpos : 0 < q * S.sum) :
    select_rank (.quantile q) S =
      .ok ((cumsum S).countP fun c => decide (c < q * S.sum)) ∧
    select_rank (.percentile q) S = select_rank (.quantile q) S ∧
    ((cumsum S).countP fun c => decide (c < q * S.sum)) + 1 =
      smallestReach (q * S.sum) S := by
  have h0s : 0 ≤ S.sum := List.sum_nonneg hnn
  have hsum : q * S.sum ≤ S.sum := by
    calc q * S.sum ≤ 1 * S.sum := mul_le_mul_of_nonneg_right h1 h0s
      _ = S.sum := one_mul _
  exact ⟨by simp [select_rank, h0, h1], rfl,
    countP_cumsum_add_one hnn hpos hsum⟩

/-- Claim C3 counterexample: for the spectrum `S = [3, 1]` and
`q = 1/2` the code selects pre-clamp rank 0, while the smallest prefix
whose cumulative sum reaches `q * sum(S) = 2` has length 1. -/
theorem quantile_rank_counterexample :
    select_rank (.quantile (1/2)) [3, 1] = .ok 0 ∧
    smallestReach ((1/2) * ([3, 1] : List ℚ).sum) [3, 1] = 1 ∧
    select_rank (.quantile (1/2)) [3, 1] ≠
      .ok (smallestReach ((1/2) * ([3, 1] : List ℚ).sum) [3, 1]) := by
  norm_num [select_rank, cumsum, List.countP_cons, smallestReach]

/-- Witness for the amended claim C3, at `S = [3, 1]`, `q = 1/2`. -/
theorem quantile_rank_amended_witness :
    ((0 : ℚ) ≤ 1/2 ∧ (1/2 : ℚ) ≤ 1 ∧
      ([3, 1] : List ℚ).Sorted (· ≥ ·) ∧
      (∀ x ∈ ([3, 1] : List ℚ), 0 ≤ x) ∧
      (0 : ℚ) < (1/2) * ([3, 1] : List ℚ).sum) ∧
    ((cumsum [3, 1]).countP fun c =>
        decide (c < (1/2) * ([3, 1] : List ℚ).sum)) + 1 =
      smallestReach ((1/2) * ([3, 1] : List ℚ).sum) [3, 1] :=
  ⟨⟨by norm_num, by norm_num,
    by norm_num [List.sorted_cons],
    by intro x hx; simp at hx; rcases hx with rfl | rfl <;> norm_num,
    by norm_num⟩,
   (quantile_rank_amended [3, 1] (1/2) (by norm_num) (by norm_num)
     (by norm_num [List.sorted_cons])
     (by intro x hx; simp at hx; rcases hx with rfl | rfl <;> norm_num)
     (by norm_num)).2.2⟩

/-- Claim C4 (amended): in `ratio` mode the code counts singular values
STRICTLY greater than `max(S) * ratio` (torch `S > min_s`), not
greater-or-equal as claimed; on a descending spectrum that count is the
maximal prefix of values strictly above the threshold. -/
theorem ratio_rank_amended (S : List ℚ) (r : ℚ) (h0 : 0 ≤ r) (h1 : r ≤ 1)
    (hs : S.Sorted (· ≥ ·)) :
    select_rank (.ratio r) S =
      .ok (S.takeWhile fun s => decide (maxList S * r < s)).length := by
  have h := countP_eq_takeWhile_length (S := S) (t := maxList S * r) hs
  simp [select_rank, h0, h1, h]

/-- Claim C4 counterexample: for the spectrum `[4, 2, 1]` and
`ratio = 1/2` (threshold `2`), the code selects rank 1 (`4 > 2` only),
not 2 as the `≥` reading of the claim would require. -/
theorem ratio_rank_counterexample :
    select_rank (.ratio (1/2)) [4, 2, 1] = .ok 1 ∧
    (([4, 2, 1] : List ℚ).countP fun s =>
      decide (maxList [4, 2, 1] * (1/2) ≤ s)) = 2 ∧
    select_rank (.ratio (1/2)) [4, 2, 1] ≠
      .ok (([4, 2, 1] : List ℚ).countP fun s =>
        decide (maxList [4, 2, 1] * (1/2) ≤ s)) := by
  norm_num [select_rank, maxList, List.countP_cons]

/-- Witness for the amended claim C4, at `S = [4, 2, 1]`,
`ratio = 1/2`. -/
theorem ratio_rank_amended_witness :
    ((0 : ℚ) ≤ 1/2 ∧ (1/2 : ℚ) ≤ 1 ∧ ([4, 2, 1] : List ℚ).Sorted (· ≥ ·)) ∧
    select_rank (.ratio (1/2)) [4, 2, 1] =
      .ok (([4, 2, 1] : List ℚ).takeWhile fun s =>
        decide (maxList [4, 2, 1] * (1/2) < s)).length :=
  ⟨⟨by norm_num, by norm_num, by norm_num [List.sorted_cons]⟩,
   ratio_rank_amended [4, 2, 1] (1/2) (by norm_num) (by norm_num)
     (by norm_num [List.sorted_cons])⟩

/-- Claim C5: the selected rank is clamped to `[1, min(out_ch, in_ch)]`;
`extract_linear` returns `full` with the (float-cast, here identity)
input exactly when the clamped rank satisfies `lora_rank ≥ out_ch/2`, and
`extract_conv` exactly when additionally `is_cp` is false; with `is_cp`
true it always returns a low-rank triple. -/
theorem clamp_and_full_fallback {out_ch in_ch k l : ℕ}
    (hout : 1 ≤ out_ch) (hin : 1 ≤ in_ch) (r0 : ℕ)
    (W : Matrix (Fin out_ch) (Fin in_ch) ℚ) (svd : SVDData out_ch in_ch)
    (mode : ExtractMode) (hsel : select_rank mode (List.ofFn svd.S) = .ok r0)
    (W4 : Tensor4 out_ch in_ch k l) (svd4 : SVDData out_ch (in_ch * (k * l)))
    (mode4 : ExtractMode) (is_cp : Bool)
    (hsel4 : select_rank mode4 (List.ofFn svd4.S) = .ok r0) :
    (1 ≤ clamp_rank out_ch in_ch r0 ∧
      clamp_rank out_ch in_ch r0 ≤ min out_ch in_ch) ∧
    (extract_linear W svd mode = .ok (.full W) ↔
      out_ch ≤ 2 * clamp_rank out_ch in_ch r0) ∧
    (∀ w, extract_linear W svd mode = .ok (.full w) → w = W) ∧
    (extract_conv W4 svd4 mode4 is_cp = .ok (.full W4) ↔
      (out_ch ≤ 2 * clamp_rank out_ch in_ch r0 ∧ is_cp = false)) ∧
    (∀ w, extract_conv W4 svd4 mode4 is_cp = .ok (.full w) → w = W4) ∧
    (is_cp = true →
      ∃ rk dn up df, extract_conv W4 svd4 mode4 is_cp = .ok (.low rk dn up df)) := by
  have hlin : extract_linear W svd mode =
      (if out_ch ≤ 2 * clamp_rank out_ch in_ch r0 then
        .ok (.full W)
      else
        .ok (.low (clamp_rank out_ch in_ch r0)
          (truncDown svd.Vh (clamp_rank out_ch in_ch r0))
          (truncUp svd.U svd.S (clamp_rank out_ch in_ch r0))
          (W - matProd (truncUp svd.U svd.S (clamp_rank out_ch in_ch r0))
            (truncDown svd.Vh (clamp_rank out_ch in_ch r0))))) := by
    simp only [extract_linear, hsel]
  have hconv : extract_conv W4 svd4 mode4 is_cp =
      (if out_ch ≤ 2 * clamp_rank out_ch in_ch r0 ∧ is_cp = false then
        .ok (.full W4)
      else
        .ok (.low (clamp_rank out_ch in_ch r0)
          (unreshapeRows (truncDown svd4.Vh (clamp_rank out_ch in_ch r0)))
          (expand11 (truncUp svd4.U svd4.S (clamp_rank out_ch in_ch r0)))
          (W4 - unreshape2
            (matProd (truncUp svd4.U svd4.S (clamp_rank out_ch in_ch r0))
              (truncDown svd4.Vh (clamp_rank out_ch in_ch r0)))))) := by
    simp only [extract_conv, hsel4]
  refine ⟨⟨?_, ?_⟩, ?_, ?_, ?_, ?_, ?_⟩
  · unfold clamp_rank; omega
  · unfold clamp_rank; omega
  · rw [hlin]
    by_cases hc : out_ch ≤ 2 * clamp_rank out_ch in_ch r0
    · simp [hc]
    · simp [hc]
  · intro w hw
    rw [hlin] at hw
    by_cases hc : out_ch ≤ 2 * clamp_rank out_ch in_ch r0
    · rw [if_pos hc] at hw
      exact (by injection hw with h; injection h with h1; exact h1.symm)
    · rw [if_neg hc] at hw
      exact absurd hw (by simp)
  · rw [hconv]
    by_cases hc : out_ch ≤ 2 * clamp_rank out_ch in_ch r0 ∧ is_cp = false
    · simp [hc]
    · rw [if_neg hc]
      constructor
      · intro hcon
        exact absurd hcon (by simp)
      · intro hcond
        exact absurd hcond hc
  · intro w hw
    rw [hconv] at hw
    by_cases hc : out_ch ≤ 2 * clamp_rank out_ch in_ch r0 ∧ is_cp = false
    · rw [if_pos hc] at hw
      exact (by injection hw with h; injection h with h1; exact h1.symm)
    · rw [if_neg hc] at hw
      exact absurd hw (by simp)
  · intro hcp
    rw [hconv, if_neg (by simp [hcp])]
    exact ⟨_, _, _, _, rfl⟩

/-- Witness for claim C5: `mode='fixed', mode_param=5` on a 2×2 layer
clamps to rank 2, which triggers the `full` fallback for
`extract_linear`, while `extract_conv` with `is_cp=True` still returns a
low-rank triple. -/
theorem clamp_and_full_fallback_witness :
    (select_rank (.fixed 5) (List.ofFn c5svd.S) = .ok 5) ∧
    (1 ≤ clamp_rank 2 2 5 ∧ clamp_rank 2 2 5 ≤ min 2 2) ∧
    extract_linear c5W c5svd (.fixed 5) = .ok (.full c5W) ∧
    (∃ rk dn up df,
      extract_conv c5W4 c5svd4 (.fixed 5) true = .ok (.low rk dn up df)) :=
  have h := clamp_and_full_fallback (k := 1) (l := 1) (by norm_num)
    (by norm_num) 5 c5W c5svd (.fixed 5) rfl c5W4 c5svd4 (.fixed 5) true rfl
  ⟨rfl, h.1, h.2.1.mpr (by norm_num [clamp_rank]), h.2.2.2.2.2 rfl⟩

/-- Claim C7: for the `full` kind, the merged weight is
`orig_weight + diff * scale`; but when no `diff_b` is carried and the
base layer has a bias, the code evaluates `params[1].reshape(...)` with
`params[1] = None` and raises `AttributeError` instead of leaving the
bias unchanged (extraction never emits `.diff_b`, so this hits every
merged full layer with a bias). -/
theorem rebuild_full_missing_bias_diff_raises :
    rebuild_weight (.full ⟨.float16, [2, 2], [1, 0, 0, 1]⟩ Option.none)
      (some ⟨.float32, [2, 2], [1, 2, 3, 4]⟩)
      (some ⟨.float32, [2], [5, 6]⟩) 1 = .error .attributeError :=
  rfl

/-- Claim C8: the `kron` alpha rescale guard tests `w1b is not None or
w2b is not None` but then picks the divisor with the bare truthiness test
`w1b.size(0) if w1b else w2b.size(0)`.  For a `w1b` with more than one
element this raises `RuntimeError` (ambiguous tensor truthiness), and for
a one-element zero `w1b` with `w2b` absent it falls through to
`None.size(0)`, an `AttributeError` — the step does not succeed for every
well-formed tuple with one side present, and presence of `w1b` does not
decide the divisor. -/
theorem kron_alpha_rescale_raises :
    rebuild_weight
      (.kron Option.none Option.none (some ⟨.float32, [2, 2], [1, 0, 0, 1]⟩)
        (some ⟨.float32, [2, 2], [1, 0, 0, 1]⟩) Option.none Option.none
        Option.none Option.none (some ⟨.float32, [1], [2]⟩))
      (some ⟨.float32, [4, 4], List.replicate 16 0⟩) Option.none 1 =
      .error .runtimeError ∧
    rebuild_weight
      (.kron Option.none Option.none (some ⟨.float32, [1], [0]⟩)
        Option.none Option.none Option.none Option.none Option.none
        (some ⟨.float32, [1], [2]⟩))
      (some ⟨.float32, [2, 2], [1, 2, 3, 4]⟩) Option.none 1 =
      .error .attributeError :=
  ⟨rfl, rfl⟩

/-- Helper for claim C9: a tensor already in float32 is unchanged by
`.float()`. -/
theorem toFloat_of_float32 (t : DTensor) (h : t.dtype = .float32) :
    t.toFloat = t := by
  cases t
  simp only [DTensor.toFloat] at *
  simp_all

/-- Claim C9 (amended): the conversion pass at the top of `merge`
reassigns every entry of the state dict to `v.float().cpu()`: the key set
is preserved and the numeric data of every tensor is unchanged (half→
float widening is exact), and an entry is bound to the same tensor iff it
is already float32 — but entries of other dtypes are rebound to new
tensors, so the mapping is not read-only. -/
theorem merge_convert_amended (sd : List (String × DTensor)) :
    (merge_convert_cpu sd).map Prod.fst = sd.map Prod.fst ∧
    ∀ p ∈ sd, (p.1, p.2.toFloat) ∈ merge_convert_cpu sd ∧
      (p.2.toFloat).data = p.2.data ∧ (p.2.toFloat).shape = p.2.shape ∧
      (p.2.dtype = Dtype.float32 → p.2.toFloat = p.2) := by
  constructor
  · simp [merge_convert_cpu]
  · intro p hp
    refine ⟨?_, rfl, rfl, toFloat_of_float32 p.2⟩
    exact List.mem_map_of_mem (fun q => (q.1, q.2.toFloat)) hp

/-- Claim C9 counterexample: a state dict holding a half tensor is
changed by the conversion pass — the entry is rebound to a float32
tensor, so merge does not leave the mapping with the same tensor
values. -/
theorem merge_convert_counterexample :
    merge_convert_cpu [("k", ⟨.float16, [1], [1]⟩)] =
      [("k", ⟨.float32, [1], [1]⟩)] ∧
    merge_convert_cpu [("k", ⟨.float16, [1], [1]⟩)] ≠
      [("k", ⟨.float16, [1], [1]⟩)] := by
  refine ⟨rfl, ?_⟩
  intro h
  rw [show merge_convert_cpu [("k", ⟨.float16, [1], [1]⟩)] =
    [("k", (⟨.float32, [1], [1]⟩ : DTensor))] from rfl] at h
  simp at h

theorem hadamard4_row0 (i : Fin 4) (hi : (i : ℕ) = 0) (q : Fin 4) :
    hadamard4 i q = 1/2 := by
  have h : i = ⟨0, by norm_num⟩ := Fin.ext hi
  subst h
  fin_cases q <;> rfl

theorem hadamard4_orth : hadamard4 * hadamard4.transpose = 1 := by
  ext i j
  rw [Matrix.mul_apply]
  simp only [Matrix.transpose_apply]
  fin_cases i <;> fin_cases j <;>
    norm_num [hadamard4, Fin.sum_univ_succ, Matrix.one_apply, Fin.ext_iff]

/-- Claim C6: the spec says the residual carried to the optional bias
sparsification equals `original diff − reconstruction` on both low-rank
paths.  On the `small_conv` path the code computes
`diff = root_weight - einsum(...)` (line 194) — subtracting the
reconstruction from the FINE-TUNED weight, not from the diff.  On this
concrete run the reconstruction equals the diff exactly, so the claim
demands a zero residual, but the code carries the whole base weight. -/
theorem small_conv_residual_bug :
    IsSVD c6svd1 (reshape2 (c6F - c6B)) ∧
    IsSVD (c6svd2 1)
      (reshape2 (transpose01 (unreshapeRows (truncDown c6svd1.Vh 1)))) ∧
    reconOfE (extract_lora_conv c6F c6B c6svd1 c6svd2
      (.fixed 1) (.fixed 1) true 0) = some (c6F - c6B) ∧
    residualOfE (extract_lora_conv c6F c6B c6svd1 c6svd2
      (.fixed 1) (.fixed 1) true 0) = some c6B ∧
    some c6B ≠ some ((c6F - c6B) - (c6F - c6B)) := by
  have hmin1 : (0 : ℕ) < min 1 (1 * (2 * 2)) := by norm_num
  have hmin3 : (0 : ℕ) < min 3 (1 * (2 * 2)) := by norm_num
  have hm14 : (0 : ℕ) < 1 * (2 * 2) := by norm_num
  have hmk3 : ∀ h : (0 : ℕ) < 3, (⟨0, h⟩ : Fin 3) = 0 := fun h => Fin.ext rfl
  have ht1 : ∀ (a b : Fin 1) (x y : Fin 2),
      transpose01 (unreshapeRows (truncDown (c6svd2 1).Vh 1)) a b x y
        = 1/2 := by
    intro a b x y
    have hb : b = 0 := Subsingleton.elim _ _
    subst hb
    show truncDown (c6svd2 1).Vh 1 0 (idx3 1 2 2 ⟨a, x, y⟩) = 1/2
    simp only [truncDown]
    rw [dif_pos (show (((0 : Fin 1) : ℕ)) < 1 * (2 * 2) from hm14)]
    exact hadamard4_row0 _ rfl _
  have ht2 : ∀ (j q : Fin 1),
      flatten11 (transpose01 (expand11
        (truncUp (c6svd2 1).U (c6svd2 1).S 1))) j q = 1 := by
    intro j q
    have hj : j = 0 := Subsingleton.elim _ _
    have hq : q = 0 := Subsingleton.elim _ _
    subst hj
    subst hq
    show truncUp (c6svd2 1).U (c6svd2 1).S 1 0 0 = 1
    simp only [truncUp]
    rw [dif_pos (show (((0 : Fin 1) : ℕ)) < min 1 (1 * (2 * 2)) from hmin1)]
    show (1 : Matrix (Fin 1) (Fin 1) ℚ) 0 ⟨0, by norm_num⟩ * (1 : ℚ) = 1
    rw [show (⟨0, by norm_num⟩ : Fin 1) = 0 from Fin.ext rfl,
      Matrix.one_apply_eq, one_mul]
  have ht3 : ∀ (j : Fin 1) (p : Fin 3),
      flatten11 (expand11 (truncUp c6svd1.U c6svd1.S 1)) p j =
        (if p = 0 then (4 : ℚ) else 0) := by
    intro j p
    have hj : j = 0 := Subsingleton.elim _ _
    subst hj
    show truncUp c6svd1.U c6svd1.S 1 p 0 = _
    simp only [truncUp]
    rw [dif_pos (show (((0 : Fin 1) : ℕ)) < min 3 (1 * (2 * 2)) from hmin3)]
    show (1 : Matrix (Fin 3) (Fin 3) ℚ) p ⟨0, by norm_num⟩ *
      c6svd1.S ⟨0, hmin3⟩ = _
    have hS : c6svd1.S ⟨0, hmin3⟩ = 4 := rfl
    rw [hS, Matrix.one_apply, hmk3 (by norm_num)]
    split_ifs <;> norm_num
  have heinsum : einsum_mid
      (transpose01 (unreshapeRows (truncDown (c6svd2 1).Vh 1)))
      (flatten11 (transpose01 (expand11
        (truncUp (c6svd2 1).U (c6svd2 1).S 1))))
      (flatten11 (expand11 (truncUp c6svd1.U c6svd1.S 1))) = c6F - c6B := by
    funext p q x y
    simp only [einsum_mid]
    rw [Fin.sum_univ_one, Fin.sum_univ_one, ht1 0 0 x y, ht2 0 q, ht3 0 p]
    show _ = c6F p q x y - c6B p q x y
    simp only [c6F, c6B]
    split_ifs <;> norm_num
  have hA1 : reshape2 (c6F - c6B) =
      c6svd1.U * sigmaMat c6svd1.S * c6svd1.Vh := by
    ext i q
    rw [mul_sigma_mul_apply]
    rw [Finset.sum_eq_single_of_mem 0 (Finset.mem_range.mpr hmin3)]
    · rw [dif_pos hmin3]
      have hH : c6svd1.Vh ⟨0, lt_of_lt_of_le hmin3 (min_le_right _ _)⟩ q = 1/2 :=
        hadamard4_row0 _ rfl q
      rw [hH]
      have hL : reshape2 (c6F - c6B) i q = (if i = 0 then 3 else 1) - 1 := rfl
      have hS : c6svd1.S ⟨0, hmin3⟩ = 4 := rfl
      rw [hL]
      show _ = (1 : Matrix (Fin 3) (Fin 3) ℚ) i ⟨0, by norm_num⟩ *
        c6svd1.S ⟨0, hmin3⟩ * (1/2)
      rw [hS, Matrix.one_apply, hmk3 (by norm_num)]
      split_ifs <;> norm_num
    · intro b hb hb0
      by_cases hblt : b < min 3 (1 * (2 * 2))
      · rw [dif_pos hblt]
        have hS0 : c6svd1.S ⟨b, hblt⟩ = 0 := by
          show (if ((⟨b, hblt⟩ : Fin (min 3 (1 * (2 * 2)))) : ℕ) = 0
            then (4:ℚ) else 0) = 0
          rw [if_neg]
          exact hb0
        rw [hS0, mul_zero, zero_mul]
      · rw [dif_neg hblt]
  have hB1 : reshape2 (transpose01 (unreshapeRows (truncDown c6svd1.Vh 1))) =
      (c6svd2 1).U * sigmaMat (c6svd2 1).S * (c6svd2 1).Vh := by
    ext i q
    rw [mul_sigma_mul_apply]
    rw [Finset.sum_eq_single_of_mem 0 (Finset.mem_range.mpr hmin1)]
    · rw [dif_pos hmin1]
      have hH : (c6svd2 1).Vh ⟨0, lt_of_lt_of_le hmin1 (min_le_right _ _)⟩ q = 1/2 :=
        hadamard4_row0 _ rfl q
      rw [hH]
      have hL : reshape2 (transpose01 (unreshapeRows (truncDown c6svd1.Vh 1)))
          i q = 1/2 := by
        show truncDown c6svd1.Vh 1 ((idx3 1 2 2).symm q).1
          (idx3 1 2 2 ⟨i, ((idx3 1 2 2).symm q).2.1,
            ((idx3 1 2 2).symm q).2.2⟩) = 1/2
        simp only [truncDown]
        rw [dif_pos
          (lt_of_lt_of_le ((idx3 1 2 2).symm q).1.isLt (by norm_num))]
        exact hadamard4_row0 _
          (Nat.lt_one_iff.mp ((idx3 1 2 2).symm q).1.isLt) _
      rw [hL]
      show (1/2 : ℚ) = (1 : Matrix (Fin 1) (Fin 1) ℚ) i ⟨0, by norm_num⟩ *
        (c6svd2 1).S ⟨0, hmin1⟩ * (1/2)
      rw [show (⟨0, by norm_num⟩ : Fin 1) = i from Subsingleton.elim _ _,
        Matrix.one_apply_eq]
      show (1/2 : ℚ) = 1 * 1 * (1/2)
      norm_num
    · intro b hb hb0
      exact absurd (Nat.lt_one_iff.mp (by
        have h := Finset.mem_range.mp hb
        omega)) hb0
  have hUorth3 : (1 : Matrix (Fin 3) (Fin 3) ℚ).transpose *
      (1 : Matrix (Fin 3) (Fin 3) ℚ) = 1 := by simp
  have hUorth1 : (1 : Matrix (Fin 1) (Fin 1) ℚ).transpose *
      (1 : Matrix (Fin 1) (Fin 1) ℚ) = 1 := by simp
  have hsvdA : IsSVD c6svd1 (reshape2 (c6F - c6B)) := by
    refine ⟨hA1, hUorth3, hadamard4_orth, ?_, ?_⟩
    · intro a b hab
      have hab2 : (a : ℕ) ≤ (b : ℕ) := hab
      show (if ((b : ℕ)) = 0 then (4:ℚ) else 0) ≤
        (if ((a : ℕ)) = 0 then (4:ℚ) else 0)
      split_ifs with h1 h2
      · norm_num
      · exact absurd (by omega : (a : ℕ) = 0) h2
      · norm_num
      · norm_num
    · intro a
      show (0 : ℚ) ≤ (if ((a : ℕ)) = 0 then (4:ℚ) else 0)
      split_ifs <;> norm_num
  have hsvdB : IsSVD (c6svd2 1)
      (reshape2 (transpose01 (unreshapeRows (truncDown c6svd1.Vh 1)))) := by
    refine ⟨hB1, hUorth1, hadamard4_orth, ?_, ?_⟩
    · intro a b _
      exact le_refl _
    · intro a
      exact zero_le_one
  have hrecon : reconOfE (extract_lora_conv c6F c6B c6svd1 c6svd2
      (.fixed 1) (.fixed 1) true 0) =
      some (einsum_mid
        (transpose01 (unreshapeRows (truncDown (c6svd2 1).Vh 1)))
        (flatten11 (transpose01 (expand11
          (truncUp (c6svd2 1).U (c6svd2 1).S 1))))
        (flatten11 (expand11 (truncUp c6svd1.U c6svd1.S 1)))) := rfl
  have hresid : residualOfE (extract_lora_conv c6F c6B c6svd1 c6svd2
      (.fixed 1) (.fixed 1) true 0) =
      some (c6F - einsum_mid
        (transpose01 (unreshapeRows (truncDown (c6svd2 1).Vh 1)))
        (flatten11 (transpose01 (expand11
          (truncUp (c6svd2 1).U (c6svd2 1).S 1))))
        (flatten11 (expand11 (truncUp c6svd1.U c6svd1.S 1)))) := rfl
  refine ⟨hsvdA, hsvdB, ?_, ?_, ?_⟩
  · rw [hrecon, heinsum]
  · rw [hresid, heinsum]
    congr 1
    funext p q x y
    show c6F p q x y - (c6F p q x y - c6B p q x y) = c6B p q x y
    ring
  · intro h
    have h2 := Option.some.inj h
    have h3 := congrFun (congrFun (congrFun (congrFun h2 0) 0) 0) 0
    show False
    rw [show ((c6F - c6B) - (c6F - c6B)) 0 0 0 0 =
      c6F 0 0 0 0 - c6B 0 0 0 0 - (c6F 0 0 0 0 - c6B 0 0 0 0) from rfl] at h3
    simp only [c6F, c6B] at h3
    norm_num at h3

/-- Witness for the amended claim C9. -/
theorem merge_convert_amended_witness :
    (("k", (⟨.float16, [1], [1]⟩ : DTensor)) ∈
      ([("k", (⟨.float16, [1], [1]⟩ : DTensor))] : List (String × DTensor))) ∧
    (("k", DTensor.toFloat ⟨.float16, [1], [1]⟩) ∈
      merge_convert_cpu [("k", ⟨.float16, [1], [1]⟩)]) :=
  ⟨List.mem_singleton.mpr rfl,
   ((merge_convert_amended [("k", ⟨.float16, [1], [1]⟩)]).2
     ("k", ⟨.float16, [1], [1]⟩) (List.mem_singleton.mpr rfl)).1⟩

end Lycoris

